import Mathlib

/-!
Verification of the redmart-ski solver (src/main.cpp).

The C++ program reads a rectangular elevation grid and computes the longest
strictly-descending 4-connected path (output as a number of cells) and,
among paths of that length, the greatest elevation drop.  The embedding
below translates the source directly:

* `ElevationMap`, `ElevationMap.size`, `ElevationMap.elev` model the
  `ElevationMap` struct (row-major `data`, `size = rows * columns`);
* `ElevationMap.lower_neighbors` transcribes `lower_neighbors` (lines
  26-57), with the same guard conditions and the same left, right, top,
  bottom order;
* `stepPair` transcribes the candidate-reduction step shared by `dfs`
  (lines 94-99) and `solve` (lines 115-120): a strictly larger distance
  replaces the pair, an equal distance keeps the larger drop;
* `nodeState` models the memoized depth-first search `dfs` (lines 82-102)
  as a pure recursion: since the descending-neighbor relation strictly
  decreases elevation, each cell state is a function of its descending
  neighbors only, and memoization returns exactly this value;
* `solve` transcribes `solve` (lines 104-126), returning the printed pair
  `(max_distance + 1, max_drop)`;
* `readMap` and `mainModel` model `ElevationMap::read` and `main`; the
  file system is an explicit map from paths to token lists (C++11 `>>`
  stores 0 on a failed extraction, hence the zero padding in `readMap`).
-/

structure ElevationMap where
  rows : Nat
  columns : Nat
  data : List Int
deriving DecidableEq

/-- `size = rows * columns` (line 16 of the source). -/
def ElevationMap.size (m : ElevationMap) : Nat := m.rows * m.columns

/-- Well-formedness: the row-major data has exactly `size` entries. -/
def ElevationMap.WF (m : ElevationMap) : Prop := m.data.length = m.size

instance (m : ElevationMap) : Decidable m.WF := by
  unfold ElevationMap.WF; infer_instance

/-- `data[index]`, totalized with default 0 for out-of-range indices. -/
def ElevationMap.elev (m : ElevationMap) (index : Nat) : Int :=
  m.data.getD index 0

/-- Transcription of `ElevationMap::lower_neighbors` (lines 26-57):
candidates in the order left, right, top, bottom, each kept when the
boundary guard holds and the neighbor is strictly lower. -/
def ElevationMap.lower_neighbors (m : ElevationMap) (index : Nat) : List Nat :=
  let row := index / m.columns
  let column := index % m.columns
  let elevation := m.elev index
  (if 0 < column ∧ elevation > m.elev (index - 1) then [index - 1] else []) ++
  (if column < m.columns - 1 ∧ elevation > m.elev (index + 1) then [index + 1] else []) ++
  (if 0 < row ∧ elevation > m.elev (index - m.columns) then [index - m.columns] else []) ++
  (if row < m.rows - 1 ∧ elevation > m.elev (index + m.columns) then [index + m.columns] else [])

/-- The candidate reduction step of `dfs` (lines 94-99) and of the loop in
`solve` (lines 115-120): `s` is the current `(distance, drop)` pair, `c` a
candidate pair. -/
def stepPair (s c : Nat × Int) : Nat × Int :=
  if s.1 < c.1 then c
  else if c.1 = s.1 then (s.1, max s.2 c.2)
  else s

/-- Membership in `lower_neighbors`, by cases over the four candidates. -/
theorem mem_lower_neighbors (m : ElevationMap) (i j : Nat) :
    j ∈ m.lower_neighbors i ↔
      (0 < i % m.columns ∧ m.elev i > m.elev (i - 1) ∧ j = i - 1) ∨
      (i % m.columns < m.columns - 1 ∧ m.elev i > m.elev (i + 1) ∧ j = i + 1) ∨
      (0 < i / m.columns ∧ m.elev i > m.elev (i - m.columns) ∧ j = i - m.columns) ∨
      (i / m.columns < m.rows - 1 ∧ m.elev i > m.elev (i + m.columns) ∧ j = i + m.columns) := by
  unfold ElevationMap.lower_neighbors
  simp only [List.mem_append]
  constructor
  · intro h
    rcases h with ((h | h) | h) | h <;> (split_ifs at h with hc <;> simp_all)
  · intro h
    rcases h with ⟨h1, h2, rfl⟩ | ⟨h1, h2, rfl⟩ | ⟨h1, h2, rfl⟩ | ⟨h1, h2, rfl⟩
    · left; left; left; split_ifs with hc <;> simp_all
    · left; left; right; split_ifs with hc <;> simp_all
    · left; right; split_ifs with hc <;> simp_all
    · right; split_ifs with hc <;> simp_all

/-- Every enumerated descending neighbor is strictly lower. -/
theorem elev_lt_of_mem_lower_neighbors {m : ElevationMap} {v u : Nat}
    (h : u ∈ m.lower_neighbors v) : m.elev u < m.elev v := by
  rw [mem_lower_neighbors] at h
  rcases h with ⟨_, h2, rfl⟩ | ⟨_, h2, rfl⟩ | ⟨_, h2, rfl⟩ | ⟨_, h2, rfl⟩ <;> exact h2

/-- The finite set of elevation values occurring in the map (plus the
out-of-range default 0), used as a termination measure. -/
def elevSet (m : ElevationMap) : Finset Int := insert 0 m.data.toFinset

theorem elev_mem_elevSet (m : ElevationMap) (v : Nat) : m.elev v ∈ elevSet m := by
  unfold ElevationMap.elev elevSet
  by_cases h : v < m.data.length
  · rw [List.getD_eq_getElem _ _ h]
    exact Finset.mem_insert_of_mem (List.mem_toFinset.mpr (List.getElem_mem h))
  · rw [List.getD_eq_default _ _ (Nat.le_of_not_lt h)]
    exact Finset.mem_insert_self _ _

/-- Termination measure for the DFS: the number of elevation values of the
map strictly below the elevation at `v`. -/
def rank (m : ElevationMap) (v : Nat) : Nat :=
  ((elevSet m).filter (fun x => x < m.elev v)).card

theorem rank_lt_of_mem_lower_neighbors {m : ElevationMap} {v u : Nat}
    (h : u ∈ m.lower_neighbors v) : rank m u < rank m v := by
  have helev : m.elev u < m.elev v := elev_lt_of_mem_lower_neighbors h
  apply Finset.card_lt_card
  constructor
  · intro x hx
    rw [Finset.mem_filter] at hx ⊢
    exact ⟨hx.1, lt_trans hx.2 helev⟩
  · intro hsup
    have hmem : m.elev u ∈ (elevSet m).filter (fun x => x < m.elev v) :=
      Finset.mem_filter.mpr ⟨elev_mem_elevSet m u, helev⟩
    have := Finset.mem_filter.mp (hsup hmem)
    exact absurd this.2 (lt_irrefl _)

/-- `rank` is bounded by the number of data entries. -/
theorem rank_lt_length_succ (m : ElevationMap) (v : Nat) :
    rank m v < m.data.length + 1 := by
  have h1 : rank m v < (elevSet m).card := by
    apply Finset.card_lt_card
    constructor
    · exact Finset.filter_subset _ _
    · intro hsup
      have hmem := Finset.mem_filter.mp (hsup (elev_mem_elevSet m v))
      exact absurd hmem.2 (lt_irrefl _)
  have h2 : (elevSet m).card ≤ m.data.toFinset.card + 1 := Finset.card_insert_le _ _
  have h3 : m.data.toFinset.card ≤ m.data.length := m.data.toFinset_card_le
  omega

/-- Pure model of the memoized DFS `dfs` (lines 82-102).  For each
descending neighbor `u` the candidate is
`(distance u + 1, drop u + data[v] - data[u])`; candidates are reduced in
enumeration order by `stepPair` starting from the zero-initialized node
state `(0, 0)`. -/
def nodeState (m : ElevationMap) (v : Nat) : Nat × Int :=
  (m.lower_neighbors v).attach.foldl
    (fun s u =>
      let su := nodeState m u.1
      stepPair s (su.1 + 1, su.2 + m.elev v - m.elev u.1))
    (0, 0)
termination_by rank m v
decreasing_by exact rank_lt_of_mem_lower_neighbors u.2

/-- Transcription of `solve` (lines 104-126): reduce all node states with
the same tie-break step, print `(max_distance + 1, max_drop)`. -/
def solve (m : ElevationMap) : Nat × Int :=
  let r := (List.range m.size).foldl (fun s v => stepPair s (nodeState m v)) (0, 0)
  (r.1 + 1, r.2)

/-- Fuel-indexed structural version of `nodeState`, used to evaluate the
solver on concrete grids (`nodeState` itself is defined by well-founded
recursion and does not reduce definitionally). -/
def nodeStateFuel : Nat → ElevationMap → Nat → Nat × Int
  | 0, _, _ => (0, 0)
  | fuel + 1, m, v =>
    (m.lower_neighbors v).foldl
      (fun s u =>
        let su := nodeStateFuel fuel m u
        stepPair s (su.1 + 1, su.2 + m.elev v - m.elev u))
      (0, 0)

/-- `solve` computed through `nodeStateFuel` with sufficient fuel. -/
def solveFuel (m : ElevationMap) : Nat × Int :=
  let r := (List.range m.size).foldl
    (fun s v => stepPair s (nodeStateFuel (m.data.length + 1) m v)) (0, 0)
  (r.1 + 1, r.2)

/-- Unfolding of `nodeState` without the `attach` bookkeeping. -/
theorem nodeState_unfold (m : ElevationMap) (v : Nat) :
    nodeState m v =
      (m.lower_neighbors v).foldl
        (fun s u => stepPair s ((nodeState m u).1 + 1, (nodeState m u).2 + m.elev v - m.elev u))
        (0, 0) := by
  rw [nodeState]
  exact List.foldl_attach (m.lower_neighbors v)
    (fun s u => stepPair s ((nodeState m u).1 + 1, (nodeState m u).2 + m.elev v - m.elev u)) (0, 0)

/-! ### Properties of the tie-break reduction `stepPair` -/

theorem stepPair_fst_le_left (s c : Nat × Int) : s.1 ≤ (stepPair s c).1 := by
  unfold stepPair
  split_ifs with h1 h2
  · exact Nat.le_of_lt h1
  · exact Nat.le_refl _
  · exact Nat.le_refl _

theorem stepPair_fst_le_right (s c : Nat × Int) : c.1 ≤ (stepPair s c).1 := by
  unfold stepPair
  split_ifs with h1 h2
  · exact Nat.le_refl _
  · exact Nat.le_of_eq h2
  · omega

theorem stepPair_snd_left {s c : Nat × Int} (h : s.1 = (stepPair s c).1) :
    s.2 ≤ (stepPair s c).2 := by
  unfold stepPair at h ⊢
  split_ifs at h ⊢ with h1 h2
  · omega
  · exact le_max_left _ _
  · exact le_refl _

theorem stepPair_snd_right {s c : Nat × Int} (h : c.1 = (stepPair s c).1) :
    c.2 ≤ (stepPair s c).2 := by
  unfold stepPair at h ⊢
  split_ifs at h ⊢ with h1 h2
  · exact le_refl _
  · exact le_max_right _ _
  · omega

theorem foldl_stepPair_init_fst (l : List (Nat × Int)) (s : Nat × Int) :
    s.1 ≤ (l.foldl stepPair s).1 := by
  induction l generalizing s with
  | nil => exact le_refl _
  | cons c l ih => exact le_trans (stepPair_fst_le_left s c) (ih (stepPair s c))

theorem foldl_stepPair_mem_fst {l : List (Nat × Int)} {c : Nat × Int} (hc : c ∈ l)
    (s : Nat × Int) : c.1 ≤ (l.foldl stepPair s).1 := by
  induction l generalizing s with
  | nil => cases hc
  | cons a l ih =>
    rcases List.mem_cons.mp hc with rfl | hmem
    · exact le_trans (stepPair_fst_le_right s c) (foldl_stepPair_init_fst l _)
    · exact ih hmem _

theorem foldl_stepPair_init_snd (l : List (Nat × Int)) (s : Nat × Int)
    (h : s.1 = (l.foldl stepPair s).1) : s.2 ≤ (l.foldl stepPair s).2 := by
  induction l generalizing s with
  | nil => exact le_refl _
  | cons c l ih =>
    have h1 : s.1 ≤ (stepPair s c).1 := stepPair_fst_le_left s c
    have h2 : (stepPair s c).1 ≤ (l.foldl stepPair (stepPair s c)).1 :=
      foldl_stepPair_init_fst l _
    simp only [List.foldl_cons] at h ⊢
    have he1 : s.1 = (stepPair s c).1 := by omega
    have he2 : (stepPair s c).1 = (l.foldl stepPair (stepPair s c)).1 := by omega
    exact le_trans (stepPair_snd_left he1) (ih _ he2)

theorem foldl_stepPair_mem_snd {l : List (Nat × Int)} {c : Nat × Int} (hc : c ∈ l)
    (s : Nat × Int) (h : c.1 = (l.foldl stepPair s).1) : c.2 ≤ (l.foldl stepPair s).2 := by
  induction l generalizing s with
  | nil => cases hc
  | cons a l ih =>
    simp only [List.foldl_cons] at h ⊢
    rcases List.mem_cons.mp hc with rfl | hmem
    · have h1 : c.1 ≤ (stepPair s c).1 := stepPair_fst_le_right s c
      have h2 : (stepPair s c).1 ≤ (l.foldl stepPair (stepPair s c)).1 :=
        foldl_stepPair_init_fst l _
      have he1 : c.1 = (stepPair s c).1 := by omega
      have he2 : (stepPair s c).1 = (l.foldl stepPair (stepPair s c)).1 := by omega
      exact le_trans (stepPair_snd_right he1) (foldl_stepPair_init_snd l _ he2)
    · exact ih hmem _ h

theorem foldl_stepPair_attained (l : List (Nat × Int)) (s : Nat × Int) :
    l.foldl stepPair s = s ∨
      ∃ c ∈ l, c.1 = (l.foldl stepPair s).1 ∧ c.2 = (l.foldl stepPair s).2 := by
  induction l generalizing s with
  | nil => exact Or.inl rfl
  | cons a l ih =>
    simp only [List.foldl_cons]
    rcases ih (stepPair s a) with heq | ⟨c, hc, h1, h2⟩
    · rw [heq]
      unfold stepPair
      split_ifs with h1 h2
      · exact Or.inr ⟨a, List.mem_cons_self a l, rfl, rfl⟩
      · rcases max_choice s.2 a.2 with hm | hm
        · left; rw [hm]
        · exact Or.inr ⟨a, List.mem_cons_self a l, by simp [h2], by simp [hm]⟩
      · exact Or.inl rfl
    · exact Or.inr ⟨c, List.mem_cons_of_mem a hc, h1, h2⟩

/-- Generic invariant preservation through the reduction. -/
theorem foldl_stepPair_invariant (P : Nat × Int → Prop) (l : List (Nat × Int))
    (s : Nat × Int) (hs : P s) (hl : ∀ c ∈ l, P c)
    (hstep : ∀ s c, P s → P c → P (stepPair s c)) : P (l.foldl stepPair s) := by
  induction l generalizing s with
  | nil => exact hs
  | cons a l ih =>
    exact ih _ (hstep s a hs (hl a (List.mem_cons_self a l)))
      (fun c hc => hl c (List.mem_cons_of_mem a hc))

/-- Pointwise congruence for `foldl`. -/
theorem foldl_congr_mem {α β : Type} {l : List α} {f g : β → α → β} {b : β}
    (h : ∀ s a, a ∈ l → f s a = g s a) : l.foldl f b = l.foldl g b := by
  induction l generalizing b with
  | nil => rfl
  | cons a l ih =>
    rw [List.foldl_cons, List.foldl_cons, h b a (List.mem_cons_self a l)]
    exact ih (fun s x hx => h s x (List.mem_cons_of_mem a hx))

/-! ### Fuel elimination -/

theorem nodeStateFuel_correct : ∀ (fuel : Nat) (m : ElevationMap) (v : Nat),
    rank m v < fuel → nodeStateFuel fuel m v = nodeState m v := by
  intro fuel
  induction fuel with
  | zero => intro m v h; omega
  | succ fuel ih =>
    intro m v h
    rw [nodeState_unfold]
    show (m.lower_neighbors v).foldl _ (0, 0) = _
    apply foldl_congr_mem
    intro s u hu
    have hrank : rank m u < fuel := by
      have := rank_lt_of_mem_lower_neighbors hu
      omega
    simp only [ih m u hrank]

theorem solve_eq_solveFuel (m : ElevationMap) : solve m = solveFuel m := by
  unfold solve solveFuel
  have : (List.range m.size).foldl (fun s v => stepPair s (nodeState m v)) (0, 0) =
      (List.range m.size).foldl
        (fun s v => stepPair s (nodeStateFuel (m.data.length + 1) m v)) (0, 0) := by
    apply foldl_congr_mem
    intro s v _
    rw [nodeStateFuel_correct _ m v (rank_lt_length_succ m v)]
  rw [this]

/-! ### Grid geometry -/

/-- Row-major coordinates of a linear index built as `C * r + x`. -/
theorem coord_div_mod {C : Nat} (hC : 0 < C) (r x : Nat) (hx : x < C) :
    (C * r + x) / C = r ∧ (C * r + x) % C = x := by
  constructor
  · rw [Nat.mul_add_div hC, Nat.div_eq_of_lt hx, Nat.add_zero]
  · rw [Nat.mul_add_mod, Nat.mod_eq_of_lt hx]

theorem index_bound {C R q c : Nat} (hq : q < R) (hc : c < C) : C * q + c < R * C := by
  have h1 : C * q + c < C * (q + 1) := by
    have : C * (q + 1) = C * q + C := by ring
    omega
  have h2 : C * (q + 1) ≤ C * R := Nat.mul_le_mul_left C hq
  have h3 : C * R = R * C := Nat.mul_comm C R
  omega

theorem columns_pos_of_lt_size {m : ElevationMap} {i : Nat} (hi : i < m.size) :
    0 < m.columns := by
  rcases Nat.eq_zero_or_pos m.columns with h0 | h
  · exfalso
    unfold ElevationMap.size at hi
    rw [h0, Nat.mul_zero] at hi
    exact Nat.not_lt_zero i hi
  · exact h

theorem row_lt_rows_of_lt_size {m : ElevationMap} {i : Nat} (hi : i < m.size) :
    i / m.columns < m.rows :=
  (Nat.div_lt_iff_lt_mul (columns_pos_of_lt_size hi)).mpr hi

/-- Descending neighbors of an in-range cell are in range. -/
theorem mem_lower_neighbors_lt_size {m : ElevationMap} {i j : Nat} (hi : i < m.size)
    (h : j ∈ m.lower_neighbors i) : j < m.size := by
  have hC : 0 < m.columns := columns_pos_of_lt_size hi
  have hq : i / m.columns < m.rows := row_lt_rows_of_lt_size hi
  have hd : m.columns * (i / m.columns) + i % m.columns = i := Nat.div_add_mod i m.columns
  have hc : i % m.columns < m.columns := Nat.mod_lt i hC
  have hsz : m.size = m.rows * m.columns := rfl
  rw [mem_lower_neighbors] at h
  obtain ⟨q, hQ⟩ : ∃ q, i / m.columns = q := ⟨_, rfl⟩
  obtain ⟨c0, hc0⟩ : ∃ c0, i % m.columns = c0 := ⟨_, rfl⟩
  simp only [hQ, hc0] at h hq hd hc
  rcases h with ⟨h1, _, rfl⟩ | ⟨h1, _, rfl⟩ | ⟨h1, _, rfl⟩ | ⟨h1, _, rfl⟩
  · omega
  · have hb : m.columns * q + (c0 + 1) < m.rows * m.columns :=
      index_bound hq (by omega)
    omega
  · omega
  · have hb : m.columns * (q + 1) + c0 < m.rows * m.columns :=
      index_bound (by omega) hc
    have hx : m.columns * (q + 1) = m.columns * q + m.columns := by ring
    omega

/-- Spec-side 4-neighbor relation, written from the spec: cells are
addressed by row-major coordinates, and two cells are 4-connected when
they agree on one coordinate and differ by exactly one on the other. -/
def SpecAdjacent (m : ElevationMap) (i j : Nat) : Prop :=
  (i / m.columns = j / m.columns ∧
    (i % m.columns = j % m.columns + 1 ∨ j % m.columns = i % m.columns + 1)) ∨
  (i % m.columns = j % m.columns ∧
    (i / m.columns = j / m.columns + 1 ∨ j / m.columns = i / m.columns + 1))

instance (m : ElevationMap) (i j : Nat) : Decidable (SpecAdjacent m i j) := by
  unfold SpecAdjacent; infer_instance

/-- Refinement of the descending-neighbor enumeration against the spec:
the enumerated indices are exactly the in-range 4-neighbors at strictly
lower elevation. -/
theorem mem_lower_neighbors_iff_spec {m : ElevationMap} {i : Nat} (hi : i < m.size)
    (j : Nat) :
    j ∈ m.lower_neighbors i ↔
      j < m.size ∧ SpecAdjacent m i j ∧ m.elev j < m.elev i := by
  have hC : 0 < m.columns := columns_pos_of_lt_size hi
  have hq : i / m.columns < m.rows := row_lt_rows_of_lt_size hi
  have hd : m.columns * (i / m.columns) + i % m.columns = i := Nat.div_add_mod i m.columns
  have hc : i % m.columns < m.columns := Nat.mod_lt i hC
  constructor
  · intro h
    refine ⟨mem_lower_neighbors_lt_size hi h, ?_⟩
    rw [mem_lower_neighbors] at h
    unfold SpecAdjacent
    obtain ⟨q, hQ⟩ : ∃ q, i / m.columns = q := ⟨_, rfl⟩
    obtain ⟨c0, hc0⟩ : ∃ c0, i % m.columns = c0 := ⟨_, rfl⟩
    simp only [hQ, hc0] at h hq hd hc ⊢
    rcases h with ⟨h1, h2, rfl⟩ | ⟨h1, h2, rfl⟩ | ⟨h1, h2, rfl⟩ | ⟨h1, h2, rfl⟩
    · have hj : i - 1 = m.columns * q + (c0 - 1) := by omega
      have hco := coord_div_mod hC q (c0 - 1) (by omega)
      refine ⟨?_, h2⟩
      rw [hj, hco.1, hco.2]
      exact Or.inl ⟨rfl, Or.inl (by omega)⟩
    · have hj : i + 1 = m.columns * q + (c0 + 1) := by omega
      have hco := coord_div_mod hC q (c0 + 1) (by omega)
      refine ⟨?_, h2⟩
      rw [hj, hco.1, hco.2]
      exact Or.inl ⟨rfl, Or.inr rfl⟩
    · obtain ⟨q1, rfl⟩ : ∃ q1, q = q1 + 1 := ⟨q - 1, by omega⟩
      have hx : m.columns * (q1 + 1) = m.columns * q1 + m.columns := by ring
      have hj : i - m.columns = m.columns * q1 + c0 := by omega
      have hco := coord_div_mod hC q1 c0 hc
      refine ⟨?_, h2⟩
      rw [hj, hco.1, hco.2]
      exact Or.inr ⟨rfl, Or.inl rfl⟩
    · have hx : m.columns * (q + 1) = m.columns * q + m.columns := by ring
      have hj : i + m.columns = m.columns * (q + 1) + c0 := by omega
      have hco := coord_div_mod hC (q + 1) c0 hc
      refine ⟨?_, h2⟩
      rw [hj, hco.1, hco.2]
      exact Or.inr ⟨rfl, Or.inr rfl⟩
  · rintro ⟨hj, hadj, helev⟩
    have hdj : m.columns * (j / m.columns) + j % m.columns = j := Nat.div_add_mod j m.columns
    have hcj : j % m.columns < m.columns := Nat.mod_lt j hC
    have hqj : j / m.columns < m.rows := row_lt_rows_of_lt_size hj
    rw [mem_lower_neighbors]
    unfold SpecAdjacent at hadj
    obtain ⟨qi, hQi⟩ : ∃ q, i / m.columns = q := ⟨_, rfl⟩
    obtain ⟨ci, hCi⟩ : ∃ c, i % m.columns = c := ⟨_, rfl⟩
    obtain ⟨qj, hQj⟩ : ∃ q, j / m.columns = q := ⟨_, rfl⟩
    obtain ⟨cj, hCj⟩ : ∃ c, j % m.columns = c := ⟨_, rfl⟩
    simp only [hQi, hCi, hQj, hCj] at hadj hd hdj hq hqj hc hcj ⊢
    rcases hadj with ⟨hr0, hcc | hcc⟩ | ⟨hc0, hrr | hrr⟩
    · -- same row, i one column right of j: j = i - 1
      rw [hr0] at hd
      have hji : j + 1 = i := by omega
      refine Or.inl ⟨by omega, ?_, by omega⟩
      rw [show i - 1 = j by omega]
      exact helev
    · -- same row, j one column right of i: j = i + 1
      rw [hr0] at hd
      have hji : j = i + 1 := by omega
      refine Or.inr (Or.inl ⟨by omega, ?_, by omega⟩)
      rw [show i + 1 = j by omega]
      exact helev
    · -- same column, i one row below j: j = i - m.columns
      have hx : m.columns * qi = m.columns * qj + m.columns := by
        rw [hrr]; ring
      have hji : j + m.columns = i := by omega
      refine Or.inr (Or.inr (Or.inl ⟨by omega, ?_, by omega⟩))
      rw [show i - m.columns = j by omega]
      exact helev
    · -- same column, j one row below i: j = i + m.columns
      have hx : m.columns * qj = m.columns * qi + m.columns := by
        rw [hrr]; ring
      have hji : j = i + m.columns := by omega
      refine Or.inr (Or.inr (Or.inr ⟨by omega, ?_, by omega⟩))
      rw [show i + m.columns = j by omega]
      exact helev

/-! ### Node state as a reduction of neighbor candidates -/

/-- The candidate pairs formed from the descending neighbors of `v`
(line 89-90 of the source). -/
def candidates (m : ElevationMap) (v : Nat) : List (Nat × Int) :=
  (m.lower_neighbors v).map
    (fun u => ((nodeState m u).1 + 1, (nodeState m u).2 + m.elev v - m.elev u))

theorem nodeState_eq_reduce (m : ElevationMap) (v : Nat) :
    nodeState m v = (candidates m v).foldl stepPair (0, 0) := by
  rw [nodeState_unfold]
  exact (List.foldl_map _ _ _ _).symm

theorem candidate_fst_le {m : ElevationMap} {v u : Nat} (hu : u ∈ m.lower_neighbors v) :
    (nodeState m u).1 + 1 ≤ (nodeState m v).1 := by
  rw [nodeState_eq_reduce m v]
  unfold candidates
  have hmem : ((nodeState m u).1 + 1, (nodeState m u).2 + m.elev v - m.elev u) ∈
      List.map (fun u => ((nodeState m u).1 + 1, (nodeState m u).2 + m.elev v - m.elev u))
        (m.lower_neighbors v) := List.mem_map_of_mem _ hu
  exact foldl_stepPair_mem_fst hmem (0, 0)

theorem candidate_snd_le {m : ElevationMap} {v u : Nat} (hu : u ∈ m.lower_neighbors v)
    (h : (nodeState m u).1 + 1 = (nodeState m v).1) :
    (nodeState m u).2 + m.elev v - m.elev u ≤ (nodeState m v).2 := by
  rw [nodeState_eq_reduce m v] at h ⊢
  unfold candidates at h ⊢
  have hmem : ((nodeState m u).1 + 1, (nodeState m u).2 + m.elev v - m.elev u) ∈
      List.map (fun u => ((nodeState m u).1 + 1, (nodeState m u).2 + m.elev v - m.elev u))
        (m.lower_neighbors v) := List.mem_map_of_mem _ hu
  exact foldl_stepPair_mem_snd hmem (0, 0) h

theorem nodeState_eq_zero_of_fst_zero {m : ElevationMap} {v : Nat}
    (h : (nodeState m v).1 = 0) : nodeState m v = (0, 0) := by
  cases hnb : m.lower_neighbors v with
  | nil =>
    rw [nodeState_eq_reduce]
    unfold candidates
    rw [hnb]
    rfl
  | cons u t =>
    exfalso
    have hu : u ∈ m.lower_neighbors v := by rw [hnb]; exact List.mem_cons_self u t
    have := candidate_fst_le hu
    omega

/-- The drop component of every node state is non-negative. -/
theorem nodeState_snd_nonneg (m : ElevationMap) (v : Nat) : 0 ≤ (nodeState m v).2 := by
  generalize hn : rank m v = n
  induction n using Nat.strong_induction_on generalizing v with
  | _ n ih =>
    subst hn
    rw [nodeState_eq_reduce]
    apply foldl_stepPair_invariant (fun s => 0 ≤ s.2)
    · exact le_refl 0
    · intro c hc
      obtain ⟨u, hu, rfl⟩ := List.mem_map.mp hc
      have h1 : 0 ≤ (nodeState m u).2 :=
        ih (rank m u) (rank_lt_of_mem_lower_neighbors hu) u rfl
      have h2 : m.elev u < m.elev v := elev_lt_of_mem_lower_neighbors hu
      show 0 ≤ (nodeState m u).2 + m.elev v - m.elev u
      omega
    · intro s c hs hc
      unfold stepPair
      split_ifs
      · exact hc
      · exact le_trans hs (le_max_left _ _)
      · exact hs

/-! ### Descending paths -/

/-- A strictly-descending path on the grid starting at `v`: successive
cells are descending neighbors, all cells in range. -/
inductive DescPath (m : ElevationMap) : Nat → List Nat → Prop
  | single (v : Nat) : v < m.size → DescPath m v [v]
  | cons (v u : Nat) (p : List Nat) : v < m.size → u ∈ m.lower_neighbors v →
      DescPath m u p → DescPath m v (v :: p)

/-- Elevation drop along a path: start elevation minus end elevation. -/
def pathDrop (m : ElevationMap) (p : List Nat) : Int :=
  m.elev (p.headD 0) - m.elev (p.getLastD 0)

theorem descPath_shape {m : ElevationMap} {v : Nat} {p : List Nat}
    (hp : DescPath m v p) : ∃ q, p = v :: q := by
  cases hp with
  | single v hv => exact ⟨[], rfl⟩
  | cons v u p hv hu hp2 => exact ⟨p, rfl⟩

theorem pathDrop_cons {m : ElevationMap} {v u : Nat} {p : List Nat}
    (hp : DescPath m u p) :
    pathDrop m (v :: p) = (m.elev v - m.elev u) + pathDrop m p := by
  obtain ⟨q, rfl⟩ := descPath_shape hp
  unfold pathDrop
  rw [show (v :: u :: q).getLastD 0 = q.getLastD u from by
    rw [List.getLastD_cons, List.getLastD_cons]]
  rw [show (u :: q).getLastD 0 = q.getLastD u from List.getLastD_cons _ _ _]
  rw [List.headD_cons, List.headD_cons]
  ring

/-- Every descending path from `v` has at most `distance v + 1` cells. -/
theorem descPath_length_le {m : ElevationMap} {v : Nat} {p : List Nat}
    (hp : DescPath m v p) : p.length ≤ (nodeState m v).1 + 1 := by
  induction hp with
  | single w hw => simp
  | cons w u p hw hu hp2 ih =>
    have hcand := candidate_fst_le hu
    rw [List.length_cons]
    omega

/-- Every descending path from `v` of maximal length has drop at most
`drop v`. -/
theorem descPath_drop_le {m : ElevationMap} {v : Nat} {p : List Nat}
    (hp : DescPath m v p) :
    p.length = (nodeState m v).1 + 1 → pathDrop m p ≤ (nodeState m v).2 := by
  induction hp with
  | single w hw =>
    intro hlen
    have h0 : pathDrop m [w] = 0 := by
      unfold pathDrop
      rw [List.headD_cons]
      rw [show ([w] : List Nat).getLastD 0 = w from List.getLastD_cons _ _ _]
      ring
    rw [h0]
    exact nodeState_snd_nonneg m w
  | cons w u p hw hu hp2 ih =>
    intro hlen
    rw [List.length_cons] at hlen
    have hub : p.length ≤ (nodeState m u).1 + 1 := descPath_length_le hp2
    have hcand : (nodeState m u).1 + 1 ≤ (nodeState m w).1 := candidate_fst_le hu
    have heq1 : p.length = (nodeState m u).1 + 1 := by omega
    have heq2 : (nodeState m u).1 + 1 = (nodeState m w).1 := by omega
    have hdropp := ih heq1
    have hsnd : (nodeState m u).2 + m.elev w - m.elev u ≤ (nodeState m w).2 :=
      candidate_snd_le hu heq2
    rw [pathDrop_cons hp2]
    omega

/-- Some descending path from `v` attains `(distance v + 1, drop v)`. -/
theorem nodeState_attained (m : ElevationMap) :
    ∀ v, v < m.size → ∃ p, DescPath m v p ∧ p.length = (nodeState m v).1 + 1 ∧
      pathDrop m p = (nodeState m v).2 := by
  intro v
  generalize hn : rank m v = n
  induction n using Nat.strong_induction_on generalizing v with
  | _ n ih =>
    intro hv
    subst hn
    rcases foldl_stepPair_attained (candidates m v) (0, 0) with hz | ⟨c, hc, h1, h2⟩
    · have hns : nodeState m v = (0, 0) := by rw [nodeState_eq_reduce, hz]
      have h0 : pathDrop m [v] = 0 := by
        unfold pathDrop
        rw [List.headD_cons]
        rw [show ([v] : List Nat).getLastD 0 = v from List.getLastD_cons _ _ _]
        ring
      refine ⟨[v], DescPath.single v hv, by simp [hns], by simp [hns, h0]⟩
    · obtain ⟨u, hu, rfl⟩ := List.mem_map.mp hc
      have hult : u < m.size := mem_lower_neighbors_lt_size hv hu
      obtain ⟨p, hp, hplen, hpdrop⟩ :=
        ih (rank m u) (rank_lt_of_mem_lower_neighbors hu) u rfl hult
      rw [← nodeState_eq_reduce] at h1 h2
      refine ⟨v :: p, DescPath.cons v u p hv hu hp, ?_, ?_⟩
      · rw [List.length_cons]
        omega
      · rw [pathDrop_cons hp, hpdrop]
        omega

/-! ### Global reduction performed by solve -/

theorem solve_reduce (m : ElevationMap) :
    solve m =
      ((((List.range m.size).map (nodeState m)).foldl stepPair (0, 0)).1 + 1,
        (((List.range m.size).map (nodeState m)).foldl stepPair (0, 0)).2) := by
  unfold solve
  rw [List.foldl_map]

theorem solve_fst_eq (m : ElevationMap) :
    (solve m).1 = (((List.range m.size).map (nodeState m)).foldl stepPair (0, 0)).1 + 1 := by
  rw [solve_reduce]

theorem solve_snd_eq (m : ElevationMap) :
    (solve m).2 = (((List.range m.size).map (nodeState m)).foldl stepPair (0, 0)).2 := by
  rw [solve_reduce]

theorem solve_fst_ge {m : ElevationMap} {v : Nat} (hv : v < m.size) :
    (nodeState m v).1 + 1 ≤ (solve m).1 := by
  rw [solve_fst_eq]
  have hmem : nodeState m v ∈ (List.range m.size).map (nodeState m) :=
    List.mem_map_of_mem _ (List.mem_range.mpr hv)
  have := foldl_stepPair_mem_fst hmem (0, 0)
  omega

theorem solve_snd_ge {m : ElevationMap} {v : Nat} (hv : v < m.size)
    (h : (nodeState m v).1 + 1 = (solve m).1) : (nodeState m v).2 ≤ (solve m).2 := by
  rw [solve_fst_eq] at h
  rw [solve_snd_eq]
  have hmem : nodeState m v ∈ (List.range m.size).map (nodeState m) :=
    List.mem_map_of_mem _ (List.mem_range.mpr hv)
  exact foldl_stepPair_mem_snd hmem (0, 0) (by omega)

theorem solve_attained (m : ElevationMap) (hne : 0 < m.size) :
    ∃ v, v < m.size ∧ (solve m).1 = (nodeState m v).1 + 1 ∧
      (solve m).2 = (nodeState m v).2 := by
  rcases foldl_stepPair_attained ((List.range m.size).map (nodeState m)) (0, 0)
    with hz | ⟨c, hc, h1, h2⟩
  · refine ⟨0, hne, ?_, ?_⟩
    · have hmem : nodeState m 0 ∈ (List.range m.size).map (nodeState m) :=
        List.mem_map_of_mem _ (List.mem_range.mpr hne)
      have hle := foldl_stepPair_mem_fst hmem (0, 0)
      rw [hz] at hle
      have h00 : nodeState m 0 = (0, 0) :=
        nodeState_eq_zero_of_fst_zero (Nat.le_zero.mp hle)
      rw [solve_fst_eq, hz, h00]
    · have hmem : nodeState m 0 ∈ (List.range m.size).map (nodeState m) :=
        List.mem_map_of_mem _ (List.mem_range.mpr hne)
      have hle := foldl_stepPair_mem_fst hmem (0, 0)
      rw [hz] at hle
      have h00 : nodeState m 0 = (0, 0) :=
        nodeState_eq_zero_of_fst_zero (Nat.le_zero.mp hle)
      rw [solve_snd_eq, hz, h00]
  · obtain ⟨v, hvr, rfl⟩ := List.mem_map.mp hc
    refine ⟨v, List.mem_range.mp hvr, ?_, ?_⟩
    · rw [solve_fst_eq, h1]
    · rw [solve_snd_eq, h2]

/-! ### Preservation lemmas for the reduction step -/

theorem stepPair_pres_snd_le {B : Int} {s c : Nat × Int} (hs : s.2 ≤ B) (hc : c.2 ≤ B) :
    (stepPair s c).2 ≤ B := by
  unfold stepPair
  split_ifs
  · exact hc
  · exact max_le hs hc
  · exact hs

theorem stepPair_pres_fst_le_snd {s c : Nat × Int} (hs : (s.1 : Int) ≤ s.2)
    (hc : (c.1 : Int) ≤ c.2) : ((stepPair s c).1 : Int) ≤ (stepPair s c).2 := by
  unfold stepPair
  split_ifs
  · exact hc
  · exact le_trans hs (le_max_left _ _)
  · exact hs

/-- Per cell, the recorded drop is at least the recorded distance
(every descending step loses at least one unit of integer elevation). -/
theorem nodeState_fst_le_snd (m : ElevationMap) (v : Nat) :
    ((nodeState m v).1 : Int) ≤ (nodeState m v).2 := by
  generalize hn : rank m v = n
  induction n using Nat.strong_induction_on generalizing v with
  | _ n ih =>
    subst hn
    rw [nodeState_eq_reduce]
    apply foldl_stepPair_invariant (fun s => (s.1 : Int) ≤ s.2)
    · simp
    · intro c hc
      obtain ⟨u, hu, rfl⟩ := List.mem_map.mp hc
      have h1 := ih (rank m u) (rank_lt_of_mem_lower_neighbors hu) u rfl
      have h2 : m.elev u < m.elev v := elev_lt_of_mem_lower_neighbors hu
      show (((nodeState m u).1 + 1 : Nat) : Int) ≤ (nodeState m u).2 + m.elev v - m.elev u
      push_cast
      omega
    · intro s c hs hc
      exact stepPair_pres_fst_le_snd hs hc

/-! ### Extreme elevations -/

/-- Smallest elevation of the grid (empty grid: the default 0). -/
def minElev (m : ElevationMap) : Int := m.data.foldl min (m.elev 0)

/-- Largest elevation of the grid (empty grid: the default 0). -/
def maxElev (m : ElevationMap) : Int := m.data.foldl max (m.elev 0)

theorem foldl_min_le_init (l : List Int) (a : Int) : l.foldl min a ≤ a := by
  induction l generalizing a with
  | nil => exact le_refl a
  | cons x t ih => exact le_trans (ih (min a x)) (min_le_left a x)

theorem foldl_min_le_mem {l : List Int} {x : Int} (hx : x ∈ l) (a : Int) :
    l.foldl min a ≤ x := by
  induction l generalizing a with
  | nil => cases hx
  | cons y t ih =>
    rcases List.mem_cons.mp hx with rfl | hmem
    · exact le_trans (foldl_min_le_init t (min a x)) (min_le_right a x)
    · exact ih hmem (min a y)

theorem foldl_max_init_le (l : List Int) (a : Int) : a ≤ l.foldl max a := by
  induction l generalizing a with
  | nil => exact le_refl a
  | cons x t ih => exact le_trans (le_max_left a x) (ih (max a x))

theorem foldl_max_mem_le {l : List Int} {x : Int} (hx : x ∈ l) (a : Int) :
    x ≤ l.foldl max a := by
  induction l generalizing a with
  | nil => cases hx
  | cons y t ih =>
    rcases List.mem_cons.mp hx with rfl | hmem
    · exact le_trans (le_max_right a x) (foldl_max_init_le t (max a x))
    · exact ih hmem (max a y)

theorem elev_mem_data {m : ElevationMap} {v : Nat} (hv : v < m.data.length) :
    m.elev v ∈ m.data := by
  unfold ElevationMap.elev
  rw [List.getD_eq_getElem _ _ hv]
  exact List.getElem_mem hv

theorem minElev_le_elev {m : ElevationMap} {v : Nat} (hv : v < m.data.length) :
    minElev m ≤ m.elev v :=
  foldl_min_le_mem (elev_mem_data hv) _

theorem elev_le_maxElev {m : ElevationMap} {v : Nat} (hv : v < m.data.length) :
    m.elev v ≤ maxElev m :=
  foldl_max_mem_le (elev_mem_data hv) _

/-- Per cell, the recorded drop never exceeds the cell elevation minus the
grid minimum. -/
theorem nodeState_snd_le (m : ElevationMap) (hwf : m.WF) :
    ∀ v, v < m.size → (nodeState m v).2 ≤ m.elev v - minElev m := by
  intro v
  generalize hn : rank m v = n
  induction n using Nat.strong_induction_on generalizing v with
  | _ n ih =>
    intro hv
    subst hn
    have hvlen : v < m.data.length := by rw [hwf]; exact hv
    rw [nodeState_eq_reduce]
    apply foldl_stepPair_invariant (fun s => s.2 ≤ m.elev v - minElev m)
    · have := minElev_le_elev hvlen
      show (0 : Int) ≤ m.elev v - minElev m
      omega
    · intro c hc
      obtain ⟨u, hu, rfl⟩ := List.mem_map.mp hc
      have hult : u < m.size := mem_lower_neighbors_lt_size hv hu
      have hulen : u < m.data.length := by rw [hwf]; exact hult
      have h1 := ih (rank m u) (rank_lt_of_mem_lower_neighbors hu) u rfl hult
      show (nodeState m u).2 + m.elev v - m.elev u ≤ m.elev v - minElev m
      omega
    · intro s c hs hc
      exact stepPair_pres_snd_le hs hc

/-! ### Guard bounds -/

theorem right_guard_lt_size {m : ElevationMap} {v : Nat} (hv : v < m.size)
    (h : v % m.columns < m.columns - 1) : v + 1 < m.size := by
  have hC : 0 < m.columns := columns_pos_of_lt_size hv
  have hq : v / m.columns < m.rows := row_lt_rows_of_lt_size hv
  have hd : m.columns * (v / m.columns) + v % m.columns = v := Nat.div_add_mod v m.columns
  obtain ⟨q, hQ⟩ : ∃ q, v / m.columns = q := ⟨_, rfl⟩
  obtain ⟨c0, hc0⟩ : ∃ c0, v % m.columns = c0 := ⟨_, rfl⟩
  simp only [hQ, hc0] at h hq hd
  have hb : m.columns * q + (c0 + 1) < m.rows * m.columns := index_bound hq (by omega)
  have hsz : m.size = m.rows * m.columns := rfl
  omega

theorem bottom_guard_lt_size {m : ElevationMap} {v : Nat} (hv : v < m.size)
    (h : v / m.columns < m.rows - 1) : v + m.columns < m.size := by
  have hC : 0 < m.columns := columns_pos_of_lt_size hv
  have hq : v / m.columns < m.rows := row_lt_rows_of_lt_size hv
  have hd : m.columns * (v / m.columns) + v % m.columns = v := Nat.div_add_mod v m.columns
  have hc : v % m.columns < m.columns := Nat.mod_lt v hC
  obtain ⟨q, hQ⟩ : ∃ q, v / m.columns = q := ⟨_, rfl⟩
  obtain ⟨c0, hc0⟩ : ∃ c0, v % m.columns = c0 := ⟨_, rfl⟩
  simp only [hQ, hc0] at h hq hd hc
  have hb : m.columns * (q + 1) + c0 < m.rows * m.columns := index_bound (by omega) hc
  have hx : m.columns * (q + 1) = m.columns * q + m.columns := by ring
  have hsz : m.size = m.rows * m.columns := rfl
  omega

/-! ### Adding a uniform constant to every elevation -/

/-- The map with every elevation shifted by `c`. -/
def shiftMap (m : ElevationMap) (c : Int) : ElevationMap :=
  ⟨m.rows, m.columns, m.data.map (fun x => x + c)⟩

theorem shiftMap_size (m : ElevationMap) (c : Int) : (shiftMap m c).size = m.size := rfl

theorem elev_shift {m : ElevationMap} {c : Int} {v : Nat} (hv : v < m.data.length) :
    (shiftMap m c).elev v = m.elev v + c := by
  unfold ElevationMap.elev shiftMap
  have hlen : v < (m.data.map (fun x => x + c)).length := by
    rw [List.length_map]; exact hv
  rw [List.getD_eq_getElem _ _ hlen, List.getD_eq_getElem _ _ hv, List.getElem_map]

theorem lower_neighbors_shift (m : ElevationMap) (c : Int) (hwf : m.WF) {v : Nat}
    (hv : v < m.size) : (shiftMap m c).lower_neighbors v = m.lower_neighbors v := by
  have e : ∀ w, w < m.size → (shiftMap m c).elev w = m.elev w + c := by
    intro w hw
    exact elev_shift (by rw [hwf]; exact hw)
  have h1 : (0 < v % m.columns ∧ (shiftMap m c).elev v > (shiftMap m c).elev (v - 1)) ↔
      (0 < v % m.columns ∧ m.elev v > m.elev (v - 1)) := by
    constructor
    · rintro ⟨ha, hb⟩
      rw [e v hv, e (v - 1) (by omega)] at hb
      exact ⟨ha, by omega⟩
    · rintro ⟨ha, hb⟩
      refine ⟨ha, ?_⟩
      rw [e v hv, e (v - 1) (by omega)]
      omega
  have h2 : (v % m.columns < m.columns - 1 ∧
      (shiftMap m c).elev v > (shiftMap m c).elev (v + 1)) ↔
      (v % m.columns < m.columns - 1 ∧ m.elev v > m.elev (v + 1)) := by
    constructor
    · rintro ⟨ha, hb⟩
      rw [e v hv, e (v + 1) (right_guard_lt_size hv ha)] at hb
      exact ⟨ha, by omega⟩
    · rintro ⟨ha, hb⟩
      refine ⟨ha, ?_⟩
      rw [e v hv, e (v + 1) (right_guard_lt_size hv ha)]
      omega
  have h3 : (0 < v / m.columns ∧ (shiftMap m c).elev v > (shiftMap m c).elev (v - m.columns)) ↔
      (0 < v / m.columns ∧ m.elev v > m.elev (v - m.columns)) := by
    constructor
    · rintro ⟨ha, hb⟩
      rw [e v hv, e (v - m.columns) (by omega)] at hb
      exact ⟨ha, by omega⟩
    · rintro ⟨ha, hb⟩
      refine ⟨ha, ?_⟩
      rw [e v hv, e (v - m.columns) (by omega)]
      omega
  have h4 : (v / m.columns < m.rows - 1 ∧
      (shiftMap m c).elev v > (shiftMap m c).elev (v + m.columns)) ↔
      (v / m.columns < m.rows - 1 ∧ m.elev v > m.elev (v + m.columns)) := by
    constructor
    · rintro ⟨ha, hb⟩
      rw [e v hv, e (v + m.columns) (bottom_guard_lt_size hv ha)] at hb
      exact ⟨ha, by omega⟩
    · rintro ⟨ha, hb⟩
      refine ⟨ha, ?_⟩
      rw [e v hv, e (v + m.columns) (bottom_guard_lt_size hv ha)]
      omega
  show ElevationMap.lower_neighbors (shiftMap m c) v = ElevationMap.lower_neighbors m v
  unfold ElevationMap.lower_neighbors
  simp only [show (shiftMap m c).columns = m.columns from rfl,
    show (shiftMap m c).rows = m.rows from rfl]
  simp only [h1, h2, h3, h4]

theorem nodeState_shift (m : ElevationMap) (c : Int) (hwf : m.WF) :
    ∀ v, v < m.size → nodeState (shiftMap m c) v = nodeState m v := by
  intro v
  generalize hn : rank m v = n
  induction n using Nat.strong_induction_on generalizing v with
  | _ n ih =>
    intro hv
    subst hn
    rw [nodeState_unfold (shiftMap m c) v, nodeState_unfold m v,
      lower_neighbors_shift m c hwf hv]
    apply foldl_congr_mem
    intro s u hu
    have hult : u < m.size := mem_lower_neighbors_lt_size hv hu
    have h1 : nodeState (shiftMap m c) u = nodeState m u :=
      ih (rank m u) (rank_lt_of_mem_lower_neighbors hu) u rfl hult
    have e1 : (shiftMap m c).elev v = m.elev v + c := elev_shift (by rw [hwf]; exact hv)
    have e2 : (shiftMap m c).elev u = m.elev u + c := elev_shift (by rw [hwf]; exact hult)
    rw [h1, e1, e2]
    have harith : (nodeState m u).2 + (m.elev v + c) - (m.elev u + c) =
        (nodeState m u).2 + m.elev v - m.elev u := by ring
    rw [harith]

theorem solve_shift (m : ElevationMap) (c : Int) (hwf : m.WF) :
    solve (shiftMap m c) = solve m := by
  unfold solve
  rw [shiftMap_size]
  have hfold : (List.range m.size).foldl
      (fun s v => stepPair s (nodeState (shiftMap m c) v)) (0, 0) =
      (List.range m.size).foldl (fun s v => stepPair s (nodeState m v)) (0, 0) := by
    apply foldl_congr_mem
    intro s v hv
    rw [nodeState_shift m c hwf v (List.mem_range.mp hv)]
  rw [hfold]

/-! ### Scaling every elevation by a positive factor -/

/-- The map with every elevation multiplied by `k`. -/
def scaleMap (m : ElevationMap) (k : Int) : ElevationMap :=
  ⟨m.rows, m.columns, m.data.map (fun x => x * k)⟩

theorem scaleMap_size (m : ElevationMap) (k : Int) : (scaleMap m k).size = m.size := rfl

theorem elev_scale (m : ElevationMap) (k : Int) (v : Nat) :
    (scaleMap m k).elev v = m.elev v * k := by
  unfold ElevationMap.elev scaleMap
  by_cases hv : v < m.data.length
  · have hlen : v < (m.data.map (fun x => x * k)).length := by
      rw [List.length_map]; exact hv
    rw [List.getD_eq_getElem _ _ hlen, List.getD_eq_getElem _ _ hv, List.getElem_map]
  · have hlen : (m.data.map (fun x => x * k)).length ≤ v := by
      rw [List.length_map]; omega
    rw [List.getD_eq_default _ _ hlen, List.getD_eq_default _ _ (by omega)]
    ring

theorem lower_neighbors_scale (m : ElevationMap) (k : Int) (hk : 0 < k) (v : Nat) :
    (scaleMap m k).lower_neighbors v = m.lower_neighbors v := by
  have e : ∀ a b : Nat, (m.elev a * k > m.elev b * k) ↔ (m.elev a > m.elev b) := by
    intro a b
    exact mul_lt_mul_right hk
  have h1 : (0 < v % m.columns ∧ (scaleMap m k).elev v > (scaleMap m k).elev (v - 1)) ↔
      (0 < v % m.columns ∧ m.elev v > m.elev (v - 1)) := by
    rw [elev_scale, elev_scale, e]
  have h2 : (v % m.columns < m.columns - 1 ∧
      (scaleMap m k).elev v > (scaleMap m k).elev (v + 1)) ↔
      (v % m.columns < m.columns - 1 ∧ m.elev v > m.elev (v + 1)) := by
    rw [elev_scale, elev_scale, e]
  have h3 : (0 < v / m.columns ∧ (scaleMap m k).elev v > (scaleMap m k).elev (v - m.columns)) ↔
      (0 < v / m.columns ∧ m.elev v > m.elev (v - m.columns)) := by
    rw [elev_scale, elev_scale, e]
  have h4 : (v / m.columns < m.rows - 1 ∧
      (scaleMap m k).elev v > (scaleMap m k).elev (v + m.columns)) ↔
      (v / m.columns < m.rows - 1 ∧ m.elev v > m.elev (v + m.columns)) := by
    rw [elev_scale, elev_scale, e]
  show ElevationMap.lower_neighbors (scaleMap m k) v = ElevationMap.lower_neighbors m v
  unfold ElevationMap.lower_neighbors
  simp only [show (scaleMap m k).columns = m.columns from rfl,
    show (scaleMap m k).rows = m.rows from rfl]
  simp only [h1, h2, h3, h4]

/-- Scaling the snd component commutes with the reduction step. -/
theorem foldl_stepPair_scale {k : Int} (hk : 0 ≤ k) (l : List (Nat × Int)) :
    ∀ (d : Nat) (p : Int),
      (l.map (fun c => (c.1, c.2 * k))).foldl stepPair (d, p * k) =
        ((l.foldl stepPair (d, p)).1, (l.foldl stepPair (d, p)).2 * k) := by
  induction l with
  | nil => intro d p; rfl
  | cons a t ih =>
    intro d p
    simp only [List.map_cons, List.foldl_cons]
    have hstep : stepPair (d, p * k) (a.1, a.2 * k) =
        ((stepPair (d, p) a).1, (stepPair (d, p) a).2 * k) := by
      unfold stepPair
      dsimp only
      split_ifs with hc1 hc2
      · rfl
      · rw [show max (p * k) (a.2 * k) = max p a.2 * k from (max_mul_of_nonneg p a.2 hk).symm]
      · rfl
    rw [hstep]
    obtain ⟨d1, p1⟩ := stepPair (d, p) a
    exact ih d1 p1

theorem nodeState_scale (m : ElevationMap) (k : Int) (hk : 0 < k) (v : Nat) :
    nodeState (scaleMap m k) v = ((nodeState m v).1, (nodeState m v).2 * k) := by
  generalize hn : rank m v = n
  induction n using Nat.strong_induction_on generalizing v with
  | _ n ih =>
    subst hn
    rw [nodeState_unfold (scaleMap m k) v, lower_neighbors_scale m k hk v]
    have hcongr : (m.lower_neighbors v).foldl
        (fun s u => stepPair s ((nodeState (scaleMap m k) u).1 + 1,
          (nodeState (scaleMap m k) u).2 + (scaleMap m k).elev v - (scaleMap m k).elev u))
        (0, 0) =
        (m.lower_neighbors v).foldl
        (fun s u => stepPair s ((nodeState m u).1 + 1,
          ((nodeState m u).2 + m.elev v - m.elev u) * k)) (0, 0) := by
      apply foldl_congr_mem
      intro s u hu
      rw [ih (rank m u) (rank_lt_of_mem_lower_neighbors hu) u rfl,
        elev_scale m k v, elev_scale m k u]
      have harith : (nodeState m u).2 * k + m.elev v * k - m.elev u * k =
          ((nodeState m u).2 + m.elev v - m.elev u) * k := by ring
      rw [harith]
    rw [hcongr]
    have h2 : (m.lower_neighbors v).foldl
        (fun s u => stepPair s ((nodeState m u).1 + 1,
          ((nodeState m u).2 + m.elev v - m.elev u) * k)) (0, 0) =
        ((candidates m v).map (fun c => (c.1, c.2 * k))).foldl stepPair (0, 0) := by
      unfold candidates
      rw [List.foldl_map, List.foldl_map]
    rw [h2]
    have h0 : ((0, 0) : Nat × Int) = (0, (0 : Int) * k) := by
      rw [zero_mul]
    rw [h0, foldl_stepPair_scale (le_of_lt hk) (candidates m v) 0 0]
    rw [← nodeState_eq_reduce]

theorem solve_scale (m : ElevationMap) (k : Int) (hk : 0 < k) :
    solve (scaleMap m k) = ((solve m).1, (solve m).2 * k) := by
  rw [solve_reduce (scaleMap m k), solve_reduce m, scaleMap_size]
  have hmap : (List.range m.size).map (nodeState (scaleMap m k)) =
      ((List.range m.size).map (nodeState m)).map (fun c => (c.1, c.2 * k)) := by
    rw [List.map_map]
    apply List.map_congr_left
    intro v hv
    exact nodeState_scale m k hk v
  rw [hmap]
  have hs := foldl_stepPair_scale (le_of_lt hk) ((List.range m.size).map (nodeState m)) 0 0
  rw [zero_mul] at hs
  rw [hs]

/-! ### Driver model -/

/-- Model of `ElevationMap::read` (lines 14-21) on a whitespace-token
stream already split into integers: the first two tokens are `columns`
and `rows`, then `rows * columns` elevations follow.  A C++11 stream
extraction that fails stores 0, hence missing tokens read as 0. -/
def readMap (tokens : List Int) : ElevationMap :=
  let columns := (tokens.getD 0 0).toNat
  let rows := (tokens.getD 1 0).toNat
  let sz := rows * columns
  let rest := (tokens.drop 2).take sz
  ⟨rows, columns, rest ++ List.replicate (sz - rest.length) 0⟩

theorem readMap_WF (tokens : List Int) : (readMap tokens).WF := by
  unfold readMap ElevationMap.WF ElevationMap.size
  simp only [List.length_append, List.length_replicate, List.length_take]
  omega

/-- Observable outcome of one process run. -/
structure ProcResult where
  exitCode : Nat
  out : String
  err : String
deriving DecidableEq

/-- The two output lines printed by `solve` (lines 124-125). -/
def formatOutput (r : Nat × Int) : String :=
  "Length: " ++ toString r.1 ++ "\n" ++ "Drop: " ++ toString r.2 ++ "\n"

/-- Model of `main` (lines 128-145).  `argv` is the full argument vector
including the program name; `fs` maps a path to the token list of the
file, or `none` when the file cannot be opened.  Diagnostic texts are
abridged. -/
def mainModel (argv : List String) (fs : String → Option (List Int)) : ProcResult :=
  match argv with
  | _ :: path :: _ =>
    match fs path with
    | none => ⟨1, "", "Cannot open " ++ path ++ "\n"⟩
    | some tokens => ⟨0, formatOutput (solve (readMap tokens)), ""⟩
  | _ => ⟨1, "", "Usage: redmart /path/to/map/file" ++ "\n"⟩

theorem solve_empty {m : ElevationMap} (h : m.size = 0) : solve m = (1, 0) := by
  unfold solve
  rw [h]
  rfl

/-! ### Claim theorems -/

/-- Concrete well-formed 2 by 2 grid used to instantiate the claims. -/
def gridW : ElevationMap := ⟨2, 2, [5, 3, 4, 1]⟩

/-- The full correctness property of the solver on one grid: per cell the
node state is reduced from the descending-neighbor candidates by the
tie-break step; per cell `(distance + 1, drop)` is attained by a
descending path and dominates every descending path; globally `solve`
returns the maximum length and, among cells attaining it, the maximum
drop. -/
def SolverCorrectOn (m : ElevationMap) : Prop :=
  (∀ v, nodeState m v = (candidates m v).foldl stepPair (0, 0)) ∧
  (∀ v, v < m.size →
    (∃ p, DescPath m v p ∧ p.length = (nodeState m v).1 + 1 ∧
      pathDrop m p = (nodeState m v).2) ∧
    (∀ p, DescPath m v p → p.length ≤ (nodeState m v).1 + 1 ∧
      (p.length = (nodeState m v).1 + 1 → pathDrop m p ≤ (nodeState m v).2))) ∧
  (∃ v, v < m.size ∧ (solve m).1 = (nodeState m v).1 + 1 ∧
    (solve m).2 = (nodeState m v).2) ∧
  (∀ v, v < m.size → (nodeState m v).1 + 1 ≤ (solve m).1 ∧
    ((nodeState m v).1 + 1 = (solve m).1 → (nodeState m v).2 ≤ (solve m).2))

/-- C1: for every non-empty well-formed grid, the solver computes per cell
the longest strictly-descending path length and, among paths of that
length, the greatest elevation drop, by reducing descending-neighbor
candidates with the tie-break rule (strictly larger length replaces the
pair, equal length keeps the larger drop); the printed results are the
maximum length over all cells and the maximum drop among the cells
attaining that length. -/
theorem solver_correct (m : ElevationMap) (hwf : m.WF) (hne : 0 < m.size) :
    SolverCorrectOn m := by
  refine ⟨fun v => nodeState_eq_reduce m v, ?_, solve_attained m hne, ?_⟩
  · intro v hv
    refine ⟨nodeState_attained m v hv, ?_⟩
    intro p hp
    exact ⟨descPath_length_le hp, descPath_drop_le hp⟩
  · intro v hv
    exact ⟨solve_fst_ge hv, fun h => solve_snd_ge hv h⟩

theorem solver_correct_witness : gridW.WF ∧ 0 < gridW.size ∧ SolverCorrectOn gridW :=
  ⟨by decide, by decide, solver_correct gridW (by decide) (by decide)⟩

/-- C2: for every well-formed grid and every in-range cell `i`, the
descending-neighbor enumeration returns exactly the in-range 4-connected
neighbors `j` of `i` with `elev i > elev j`; boundary cells omit missing
neighbors and equal elevations are excluded by the strict inequality. -/
theorem lower_neighbors_enumeration (m : ElevationMap) (hwf : m.WF) (i : Nat)
    (hi : i < m.size) (j : Nat) :
    j ∈ m.lower_neighbors i ↔
      j < m.size ∧ SpecAdjacent m i j ∧ m.elev j < m.elev i :=
  mem_lower_neighbors_iff_spec hi j

theorem lower_neighbors_enumeration_witness :
    gridW.WF ∧ 0 < gridW.size ∧
      (1 ∈ gridW.lower_neighbors 0 ↔
        1 < gridW.size ∧ SpecAdjacent gridW 0 1 ∧ gridW.elev 1 < gridW.elev 0) :=
  ⟨by decide, by decide, lower_neighbors_enumeration gridW (by decide) 0 (by decide) 1⟩

/-- C3 counterexample: on an empty grid (tokens 0 0, so C·R = 0) the
program does not fail: it exits with code 0 and prints a result. -/
theorem empty_grid_no_failure :
    mainModel ["redmart", "empty"] (fun _ => some [0, 0]) =
      ⟨0, "Length: 1\nDrop: 0\n", ""⟩ := by
  show (⟨0, formatOutput (solve (readMap [0, 0])), ""⟩ : ProcResult) = _
  rw [solve_empty (show (readMap [0, 0]).size = 0 from rfl)]
  decide

/-- C3 amended: on an empty grid (C·R = 0) the program performs no
emptiness check: it exits with code 0 and prints the default result
lines, Length: 1 and Drop: 0. -/
theorem empty_grid_prints_default (prog path : String) (rest : List String)
    (fs : String → Option (List Int)) (tokens : List Int)
    (hfs : fs path = some tokens) (hsz : (readMap tokens).size = 0) :
    mainModel (prog :: path :: rest) fs = ⟨0, "Length: 1\nDrop: 0\n", ""⟩ := by
  show (match fs path with
    | none => (⟨1, "", "Cannot open " ++ path ++ "\n"⟩ : ProcResult)
    | some tokens => ⟨0, formatOutput (solve (readMap tokens)), ""⟩) = _
  rw [hfs]
  show (⟨0, formatOutput (solve (readMap tokens)), ""⟩ : ProcResult) = _
  rw [solve_empty hsz]
  decide

theorem empty_grid_prints_default_witness :
    (fun _ => some [0, 0] : String → Option (List Int)) "m" = some [0, 0] ∧
      (readMap [0, 0]).size = 0 ∧
      mainModel ["redmart", "m"] (fun _ => some [0, 0]) =
        ⟨0, "Length: 1\nDrop: 0\n", ""⟩ :=
  ⟨rfl, by decide,
    empty_grid_prints_default "redmart" "m" [] (fun _ => some [0, 0]) [0, 0] rfl (by decide)⟩

/-- C4 counterexample: with extra CLI arguments the program does not
raise a usage error: the extra argument is ignored, the exit code is 0
and nothing is written to standard error. -/
theorem extra_args_no_usage_error :
    (mainModel ["redmart", "map", "extra"] (fun _ => some [1, 1, 5])).exitCode = 0 ∧
      (mainModel ["redmart", "map", "extra"] (fun _ => some [1, 1, 5])).err = "" :=
  ⟨rfl, rfl⟩

/-- C4 amended: running with a missing path argument is a usage error
(diagnostic on standard error, exit code 1); extra CLI arguments are not
an error: they are ignored and the first path argument is used. -/
theorem cli_usage_behavior (fs : String → Option (List Int)) :
    (∀ argv, argv.length < 2 →
      mainModel argv fs = ⟨1, "", "Usage: redmart /path/to/map/file" ++ "\n"⟩) ∧
    (∀ p path rest, mainModel (p :: path :: rest) fs = mainModel [p, path] fs) := by
  constructor
  · intro argv h
    match argv with
    | [] => rfl
    | [p] => rfl
    | p :: q :: r =>
      simp only [List.length_cons] at h
      omega
  · intro p path rest
    rfl

theorem cli_usage_behavior_witness :
    mainModel ["redmart"] (fun _ => some [1, 1, 5]) =
        ⟨1, "", "Usage: redmart /path/to/map/file" ++ "\n"⟩ ∧
      mainModel ["redmart", "m", "x"] (fun _ => some [1, 1, 5]) =
        mainModel ["redmart", "m"] (fun _ => some [1, 1, 5]) :=
  ⟨(cli_usage_behavior (fun _ => some [1, 1, 5])).1 ["redmart"] (by decide),
    (cli_usage_behavior (fun _ => some [1, 1, 5])).2 "redmart" "m" ["x"]⟩

/-- C5: adding a uniform constant to every elevation leaves both outputs
of the solver unchanged. -/
theorem uniform_shift_invariant (m : ElevationMap) (c : Int) (hwf : m.WF) :
    solve (shiftMap m c) = solve m :=
  solve_shift m c hwf

theorem uniform_shift_invariant_witness :
    gridW.WF ∧ solve (shiftMap gridW 7) = solve gridW :=
  ⟨by decide, uniform_shift_invariant gridW 7 (by decide)⟩

/-- C6: multiplying every elevation by a positive integer `k` multiplies
the best drop by `k` and leaves the best length unchanged. -/
theorem positive_scale_multiplies_drop (m : ElevationMap) (k : Int) (hk : 0 < k) :
    solve (scaleMap m k) = ((solve m).1, (solve m).2 * k) :=
  solve_scale m k hk

theorem positive_scale_multiplies_drop_witness :
    0 < (3 : Int) ∧ solve (scaleMap gridW 3) = ((solve gridW).1, (solve gridW).2 * 3) :=
  ⟨by decide, positive_scale_multiplies_drop gridW 3 (by decide)⟩

/-- C7: for every non-empty well-formed grid, the computed best drop is
non-negative and at most the maximum elevation minus the minimum
elevation of the grid. -/
theorem best_drop_bounds (m : ElevationMap) (hwf : m.WF) (hne : 0 < m.size) :
    0 ≤ (solve m).2 ∧ (solve m).2 ≤ maxElev m - minElev m := by
  obtain ⟨v, hv, h1, h2⟩ := solve_attained m hne
  constructor
  · rw [h2]
    exact nodeState_snd_nonneg m v
  · rw [h2]
    have ha := nodeState_snd_le m hwf v hv
    have hb : m.elev v ≤ maxElev m := elev_le_maxElev (by rw [hwf]; exact hv)
    omega

theorem best_drop_bounds_witness :
    gridW.WF ∧ 0 < gridW.size ∧
      (0 ≤ (solve gridW).2 ∧ (solve gridW).2 ≤ maxElev gridW - minElev gridW) :=
  ⟨by decide, by decide, best_drop_bounds gridW (by decide) (by decide)⟩

/-- The token stream of the canonical redmart 4 by 4 example. -/
def tokens8 : List Int := [4, 4, 4, 8, 7, 3, 2, 5, 9, 3, 6, 3, 2, 5, 4, 4, 1, 6]

/-- C8: on the 4 by 4 grid with rows 4 8 7 3 / 2 5 9 3 / 6 3 2 5 /
4 4 1 6, the program prints Length: 5 and Drop: 8. -/
theorem redmart_grid_output :
    mainModel ["redmart", "map"] (fun _ => some tokens8) =
      ⟨0, "Length: 5\nDrop: 8\n", ""⟩ := by
  show (⟨0, formatOutput (solve (readMap tokens8)), ""⟩ : ProcResult) = _
  rw [show solve (readMap tokens8) = (5, 8) from by rw [solve_eq_solveFuel]; decide]
  decide

/-- C9: for every grid, the descending-neighbor relation strictly
decreases elevation along every edge and is therefore well-founded, so
the memoized depth-first traversal terminates from every starting cell. -/
theorem descending_relation_wellfounded (m : ElevationMap) :
    (∀ v u, u ∈ m.lower_neighbors v → m.elev u < m.elev v) ∧
      WellFounded (fun u v => u ∈ m.lower_neighbors v) := by
  refine ⟨fun v u hu => elev_lt_of_mem_lower_neighbors hu, ?_⟩
  have hsub : Subrelation (fun u v => u ∈ m.lower_neighbors v)
      (InvImage (fun a b : Nat => a < b) (rank m)) :=
    fun h => rank_lt_of_mem_lower_neighbors h
  exact Subrelation.wf hsub (InvImage.wf _ (Nat.lt_wfRel.wf))

/-- C10: per cell, the recorded maximum drop is at least the recorded
distance (the path length minus one), since every descending edge loses
at least one unit of integer elevation; consequently the printed Drop is
at least the printed Length minus one. -/
theorem drop_at_least_distance (m : ElevationMap) :
    (∀ v, ((nodeState m v).1 : Int) ≤ (nodeState m v).2) ∧
      ((solve m).1 : Int) - 1 ≤ (solve m).2 := by
  refine ⟨nodeState_fst_le_snd m, ?_⟩
  rw [solve_fst_eq, solve_snd_eq]
  have hinv : (((((List.range m.size).map (nodeState m)).foldl stepPair (0, 0)).1 : Int)) ≤
      (((List.range m.size).map (nodeState m)).foldl stepPair (0, 0)).2 := by
    apply foldl_stepPair_invariant (fun s => (s.1 : Int) ≤ s.2)
    · simp
    · intro c hc
      obtain ⟨v, hv, rfl⟩ := List.mem_map.mp hc
      exact nodeState_fst_le_snd m v
    · intro s c hs hc
      exact stepPair_pres_fst_le_snd hs hc
  push_cast
  omega
